import Mathlib

/-!
Verification of the ustl locale/facet layer (`src/ufacets.h`) and the
container-shortcut algorithms (`src/uctralgo.h`) against their
natural-language specification.

Characters are modelled as `Nat` ASCII codes, iterators into a range as
indices into a `List Nat`, and C++ assertions as an `Option` result
(`none` = assertion failure terminates the operation).
-/

namespace ustl

/-! ### Character classification (ctype) -/

/- Mask bits of `ctype_base` (src/ufacets.h lines 32-44). -/
namespace ctype_base

def upper : Nat := 1 <<< 0

def lower : Nat := 1 <<< 1

def alpha : Nat := 1 <<< 2

def digit : Nat := 1 <<< 3

def xdigit : Nat := 1 <<< 4

def space : Nat := 1 <<< 5

def print : Nat := 1 <<< 6

def graph : Nat := 1 <<< 7

def cntrl : Nat := 1 <<< 8

def punct : Nat := 1 <<< 9

def alnum : Nat := 1 <<< 10

end ctype_base

/-- Modelled from the spec: the classification table of the default
("classic") locale's Character Classification Facet.  The body of
`ctype::is` is not under src/ (only its declaration, src/ufacets.h line 52);
§4.2 specifies bitmask membership tests and the default locale is the
classic ASCII one, so each mask bit is set according to the standard ASCII
character classes. -/
def classicMask (c : Nat) : Nat :=
  (if 65 ≤ c ∧ c ≤ 90 then ctype_base.upper else 0) |||
  (if 97 ≤ c ∧ c ≤ 122 then ctype_base.lower else 0) |||
  (if (65 ≤ c ∧ c ≤ 90) ∨ (97 ≤ c ∧ c ≤ 122) then ctype_base.alpha else 0) |||
  (if 48 ≤ c ∧ c ≤ 57 then ctype_base.digit else 0) |||
  (if (48 ≤ c ∧ c ≤ 57) ∨ (65 ≤ c ∧ c ≤ 70) ∨ (97 ≤ c ∧ c ≤ 102) then ctype_base.xdigit else 0) |||
  (if c = 32 ∨ (9 ≤ c ∧ c ≤ 13) then ctype_base.space else 0) |||
  (if 32 ≤ c ∧ c ≤ 126 then ctype_base.print else 0) |||
  (if 33 ≤ c ∧ c ≤ 126 then ctype_base.graph else 0) |||
  (if c ≤ 31 ∨ c = 127 then ctype_base.cntrl else 0) |||
  (if (33 ≤ c ∧ c ≤ 126) ∧
      ¬((65 ≤ c ∧ c ≤ 90) ∨ (97 ≤ c ∧ c ≤ 122) ∨ (48 ≤ c ∧ c ≤ 57)) then ctype_base.punct else 0) |||
  (if (65 ≤ c ∧ c ≤ 90) ∨ (97 ≤ c ∧ c ≤ 122) ∨ (48 ≤ c ∧ c ≤ 57) then ctype_base.alnum else 0)

/-- Modelled from the spec: `ctype::is (mask, c)` (declaration at
src/ufacets.h line 52, body not under src/) — §4.2: "true iff any bit of
`mask` matches `c`'s classification". -/
def ctype_is (m : Nat) (c : Nat) : Bool := decide (classicMask c &&& m ≠ 0)

/-- Modelled from the spec: `ctype::scan_is (m, first, last)` (declaration
at src/ufacets.h line 53, body not under src/) — §4.2: linear scan over
`[first,last)` returning the position of the first character matching `m`,
or `last` when none matches.  The range is a list and the returned iterator
is the offset from `first`. -/
def scan_is (m : Nat) (s : List Nat) : Nat :=
  match s with
  | [] => 0
  | c :: cs => if ctype_is m c then 0 else scan_is m cs + 1

/-- Modelled from the spec: `ctype::scan_not (m, first, last)` (declaration
at src/ufacets.h line 54, body not under src/) — §4.2: position of the
first character NOT matching `m`, or `last` when all match. -/
def scan_not (m : Nat) (s : List Nat) : Nat :=
  match s with
  | [] => 0
  | c :: cs => if ctype_is m c then scan_not m cs + 1 else 0

/-- Modelled from the spec: `ctype::toupper (c)` of the default locale
(declaration at src/ufacets.h line 55, body not under src/) — §4.2 plus the
spec's example scenario 4 (`toupper('a') == 'A'`): ASCII lowercase letters
map to their uppercase counterparts, characters without a case mapping are
returned unchanged. -/
def classic_toupper (c : Nat) : Nat :=
  if 97 ≤ c ∧ c ≤ 122 then c - 32 else c

/-- Modelled from the spec: `ctype::tolower (c)` of the default locale
(declaration at src/ufacets.h line 57, body not under src/): ASCII
uppercase letters map to lowercase, others are returned unchanged. -/
def classic_tolower (c : Nat) : Nat :=
  if 65 ≤ c ∧ c ≤ 90 then c + 32 else c

/-- Member `ctype::widen (c)` — src/ufacets.h line 59; the body is in src:
`{ return (c); }`, the value is returned unchanged. -/
def widen (c : Nat) : Nat := c

/-- The Character Classification Facet as seen through a locale: its three
member functions consumed by the free helper functions of
src/ufacets.h lines 191-213. -/
structure ctype where
  is : Nat → Nat → Bool
  toupper : Nat → Nat
  tolower : Nat → Nat

/-- The classic (default) locale's ctype facet instance. -/
def classic_ctype : ctype := ⟨fun m c => ctype_is m c, classic_toupper, classic_tolower⟩

/-- A locale: per §3 it owns at most one facet per category; only the
ctype category matters to the free helper functions. -/
structure locale where
  ctypeFacet : Option ctype

/-- Lookup `use_facet<ctype>(loc)` — §4.1: the locale's own facet when present,
else the default locale's facet. -/
def use_facet_ctype (loc : locale) : ctype :=
  loc.ctypeFacet.getD classic_ctype

/-- Free function `isspace (c, loc)` — src/ufacets.h lines 191-195 (CTYPE_IS_FUNC). -/
def isspace (c : Nat) (loc : locale) : Bool :=
  (use_facet_ctype loc).is ctype_base.space c

/-- Free function `isprint (c, loc)` — src/ufacets.h line 196. -/
def isprint (c : Nat) (loc : locale) : Bool :=
  (use_facet_ctype loc).is ctype_base.print c

/-- Free function `iscntrl (c, loc)` — src/ufacets.h line 197. -/
def iscntrl (c : Nat) (loc : locale) : Bool :=
  (use_facet_ctype loc).is ctype_base.cntrl c

/-- Free function `isupper (c, loc)` — src/ufacets.h line 198. -/
def isupper (c : Nat) (loc : locale) : Bool :=
  (use_facet_ctype loc).is ctype_base.upper c

/-- Free function `islower (c, loc)` — src/ufacets.h line 199. -/
def islower (c : Nat) (loc : locale) : Bool :=
  (use_facet_ctype loc).is ctype_base.lower c

/-- Free function `isalpha (c, loc)` — src/ufacets.h line 200. -/
def isalpha (c : Nat) (loc : locale) : Bool :=
  (use_facet_ctype loc).is ctype_base.alpha c

/-- Free function `isdigit (c, loc)` — src/ufacets.h line 201. -/
def isdigit (c : Nat) (loc : locale) : Bool :=
  (use_facet_ctype loc).is ctype_base.digit c

/-- Free function `isxdigit (c, loc)` — src/ufacets.h line 202. -/
def isxdigit (c : Nat) (loc : locale) : Bool :=
  (use_facet_ctype loc).is ctype_base.xdigit c

/-- Free function `isalnum (c, loc)` — src/ufacets.h line 203. -/
def isalnum (c : Nat) (loc : locale) : Bool :=
  (use_facet_ctype loc).is ctype_base.alnum c

/-- Free function `isgraph (c, loc)` — src/ufacets.h line 204. -/
def isgraph (c : Nat) (loc : locale) : Bool :=
  (use_facet_ctype loc).is ctype_base.graph c

/-- Free function `ispunct (c, loc)` — src/ufacets.h line 205. -/
def ispunct (c : Nat) (loc : locale) : Bool :=
  (use_facet_ctype loc).is ctype_base.punct c

/-- Free `toupper (c, loc)` — src/ufacets.h lines 209-210. -/
def toupper (c : Nat) (loc : locale) : Nat :=
  (use_facet_ctype loc).toupper c

/-- Free `tolower (c, loc)` — src/ufacets.h lines 212-213. -/
def tolower (c : Nat) (loc : locale) : Nat :=
  (use_facet_ctype loc).tolower c

/-! ### Numeric parsing (num_get) -/

/-- ASCII whitespace, as classified by the classic locale (§4.2). -/
def isSpaceChar (c : Nat) : Bool := decide (c = 32 ∨ (9 ≤ c ∧ c ≤ 13))

/-- ASCII decimal digit test. -/
def isDigitChar (c : Nat) : Bool := decide (48 ≤ c ∧ c ≤ 57)

/-- Value of a digit character under the given numeric base (`'0'..'9'`,
`'a'..`, `'A'..` for bases above ten); `none` when the character is not a
digit of that base. -/
def digitVal (base c : Nat) : Option Nat :=
  if 48 ≤ c ∧ c ≤ 57 ∧ c - 48 < base then some (c - 48)
  else if 10 ≤ base ∧ 97 ≤ c ∧ c - 87 < base then some (c - 87)
  else if 10 ≤ base ∧ 65 ≤ c ∧ c - 55 < base then some (c - 55)
  else none

/-- Modelled from the spec: the digit-run loop of `num_get::get`
(declarations at src/ufacets.h lines 80-94, bodies not under src/) —
§4.4: "digits interpreted per `flags`' numeric base, thousands separators
from the Punctuation Facet accepted and ignored inside the digit run ...
parsing stops at the first unrecognized character".  Returns the
accumulated value and the number of characters consumed. -/
def digitRun (base sep : Nat) : List Nat → Int → Int × Nat
  | [], acc => (acc, 0)
  | c :: cs, acc =>
    match digitVal base c with
    | some d =>
      let r := digitRun base sep cs (acc * (base : Int) + (d : Int))
      (r.fst, r.snd + 1)
    | none =>
      if c = sep then
        let r := digitRun base sep cs acc
        (r.fst, r.snd + 1)
      else (acc, 0)

/-- Modelled from the spec: `num_get::get` for a signed integer target
(declarations at src/ufacets.h lines 80-94, bodies not under src/) — §4.4:
leading whitespace is skipped (spec example scenario 1), then an optional
leading sign, then the digit run under the base selected by `flags`
(`base` is that base; `sep` is the Punctuation Facet's thousands
separator).  Returns the parsed value and the offset of the returned
iterator from `first` (= number of characters consumed). -/
def num_get_int (base sep : Nat) (s : List Nat) : Int × Nat :=
  let ws := (s.takeWhile isSpaceChar).length
  match s.drop ws with
  | [] => (0, ws)
  | c :: cs =>
    if c = 45 then
      let r := digitRun base sep cs 0
      (-r.fst, ws + 1 + r.snd)
    else if c = 43 then
      let r := digitRun base sep cs 0
      (r.fst, ws + 1 + r.snd)
    else
      let r := digitRun base sep (c :: cs) 0
      (r.fst, ws + r.snd)

/-- The integer value a string of decimal ASCII digit codes denotes
(most significant digit first): the specification-side meaning of "the
exact integer value of the string". -/
def natOfDigits (ds : List Nat) : Nat :=
  ds.foldl (fun a d => 10 * a + (d - 48)) 0

/-! ### Collation (collate) -/

/-- Modelled from the spec: `collate::compare (f1,l1,f2,l2)` (declaration
at src/ufacets.h line 118, body not under src/) — §4.6: "returns
negative/zero/positive exactly as a three-way string comparison under
locale rules"; the classic locale compares byte values lexicographically. -/
def collate_compare : List Nat → List Nat → Int
  | [], [] => 0
  | [], _ :: _ => -1
  | _ :: _, [] => 1
  | a :: as, b :: bs =>
    if a < b then -1 else if b < a then 1 else collate_compare as bs

/-- Modelled from the spec: `collate::transform (f1,l1)` (declaration at
src/ufacets.h line 119, body not under src/) — §4.6: a string whose plain
lexicographic comparison reproduces `compare`; for byte-value comparison
the string itself is such a key. -/
def collate_transform (s : List Nat) : List Nat := s

/-- Plain lexicographic strict ordering on strings (the specification-side
notion the transformed strings are compared with). -/
def lexLt : List Nat → List Nat → Bool
  | _, [] => false
  | [], _ :: _ => true
  | a :: as, b :: bs => decide (a < b) || (decide (a = b) && lexLt as bs)

/-! ### Message catalogs (messages) -/

/-- Modelled from the spec: the fallback string `messages::get` returns
when no catalog entry exists (§4.9: "if absent, returns a fallback
(best-effort policy — this call never fails)"). -/
def messages_fallback : String := ""

/-- Modelled from the spec: `messages::get (c, s, msgid)` (declaration at
src/ufacets.h line 187, body not under src/) — §4.9: the string registered
under `(s, msgid)` in `c`'s catalog, else the fallback; a total function,
it never aborts. -/
def messages_get (tbl : List (Int × List ((Nat × Nat) × String)))
    (c : Int) (s msgid : Nat) : String :=
  match tbl.find? (fun e => e.fst == c) with
  | some cat =>
    match cat.snd.find? (fun e => e.fst == (s, msgid)) with
    | some e => e.snd
    | none => messages_fallback
  | none => messages_fallback

/-- Modelled from the spec: `messages::close (c)` (declaration at
src/ufacets.h line 188, body not under src/) — §4.9: "releases the catalog
resource; handle becomes invalid": the handle's catalog leaves the
open-catalog table. -/
def messages_close (tbl : List (Int × List ((Nat × Nat) × String)))
    (c : Int) : List (Int × List ((Nat × Nat) × String)) :=
  tbl.filter (fun e => e.fst != c)

/-! ### Monetary formatting and parsing (money_put / money_get) -/

/-- The five pattern parts of `money_base` (src/ufacets.h line 149):
`enum part { none, space, symbol, sign, value }`. -/
inductive mpart where
  | none
  | space
  | symbol
  | sign
  | value
deriving DecidableEq

/-- Struct `money_base::pattern` (src/ufacets.h line 150): exactly four ordered
fields. -/
structure mpattern where
  f1 : mpart
  f2 : mpart
  f3 : mpart
  f4 : mpart

/-- The four fields of a pattern, in order. -/
def mpattern.fields (p : mpattern) : List mpart := [p.f1, p.f2, p.f3, p.f4]

/-- Fuel-driven digit printer: `mdigitsAux fuel n` is the decimal digit
codes of `n`, most significant first, provided `n < fuel`. -/
def mdigitsAux : Nat → Nat → List Nat
  | 0, _ => []
  | fuel + 1, n =>
    if n < 10 then [48 + n]
    else mdigitsAux fuel (n / 10) ++ [48 + n % 10]

/-- Decimal digit codes of `n`, most significant first (`"0"` for zero):
the unit-part token of a formatted monetary value. -/
def mdigits (n : Nat) : List Nat := mdigitsAux (n + 1) n

/-- Two zero-padded decimal digit codes for the fractional part (the
classic `money_punct::frac_digits()` is 2, spec example scenario 6). -/
def mfrac2 (n : Nat) : List Nat := [48 + n / 10 % 10, 48 + n % 10]

/-- Modelled from the spec: the `value`-field token written by
`money_put::put` (declarations at src/ufacets.h lines 174-179, bodies not
under src/) — §4.8: the numeric value formatted with the fractional-digit
count (2) and grouping (empty: no separators); the amount is a fixed-point
value `v` counted in hundredths, its magnitude printed as
units `.` two-digit fraction. -/
def money_value_token (v : Int) : List Nat :=
  mdigits (v.natAbs / 100) ++ 46 :: mfrac2 (v.natAbs % 100)

/-- Modelled from the spec: the token `money_put::put` writes for one
pattern field (§4.8: "literal space for `space`, currency symbol for
`symbol`, sign string for `sign`, the numeric value for `value`; `none`
fields are skipped").  Classic punctuation (spec example scenario 6):
currency symbol `"$"`, positive sign empty, negative sign `"-"`. -/
def money_field_put (v : Int) : mpart → List Nat
  | .none => []
  | .space => [32]
  | .symbol => [36]
  | .sign => if v < 0 then [45] else []
  | .value => money_value_token v

/-- Modelled from the spec: `money_put::put` (declarations at
src/ufacets.h lines 174-179, bodies not under src/) — §4.8: "walk the
active Pattern's four fields in order; for each field emit the
corresponding token". -/
def money_put (fields : List mpart) (v : Int) : List Nat :=
  (fields.map (money_field_put v)).flatten

/-- Modelled from the spec: the `value`-field parser of `money_get::get`
— §4.8: the numeric value parsed using the fractional-digit count (2) and
empty grouping: a run of unit digits, then an optional decimal point and a
run of fraction digits, scaled to hundredths.  Returns the value and the
unconsumed remainder. -/
def money_parse_value (s : List Nat) : Int × List Nat :=
  let us := s.takeWhile isDigitChar
  let r1 := s.dropWhile isDigitChar
  match r1 with
  | 46 :: r2 =>
    let fs := r2.takeWhile isDigitChar
    let r3 := r2.dropWhile isDigitChar
    let fv : Nat :=
      if fs.length ≤ 2 then natOfDigits fs * 10 ^ (2 - fs.length)
      else natOfDigits (fs.take 2)
    ((natOfDigits us * 100 + fv : Nat), r3)
  | _ => ((natOfDigits us * 100 : Nat), r1)

/-- Modelled from the spec: one field step of `money_get::get`
(declarations at src/ufacets.h lines 167-172, bodies not under src/) —
§4.8: for each pattern field consume the corresponding token; the state is
(remaining input, negative-sign seen, value parsed so far). -/
def money_field_get : mpart → List Nat × Bool × Int → List Nat × Bool × Int
  | .none, st => st
  | .space, (rem, neg, val) =>
    match rem with
    | 32 :: r => (r, neg, val)
    | _ => (rem, neg, val)
  | .symbol, (rem, neg, val) =>
    match rem with
    | 36 :: r => (r, neg, val)
    | _ => (rem, neg, val)
  | .sign, (rem, neg, val) =>
    match rem with
    | 45 :: r => (r, true, val)
    | _ => (rem, neg, val)
  | .value, (rem, neg, _) =>
    let r := money_parse_value rem
    (r.snd, neg, r.fst)

/-- Modelled from the spec: the field walk of `money_get::get` — §4.8:
"walk the active Pattern's four fields in order". -/
def money_get_fields : List mpart → List Nat × Bool × Int → List Nat × Bool × Int
  | [], st => st
  | f :: fs, st => money_get_fields fs (money_field_get f st)

/-- Modelled from the spec: `money_get::get` (declarations at
src/ufacets.h lines 167-172, bodies not under src/): walk the pattern over
the input and return the parsed amount, negated when the negative sign
string was consumed. -/
def money_get (fields : List mpart) (s : List Nat) : Int :=
  let st := money_get_fields fields (s, false, 0)
  if st.snd.fst then -st.snd.snd else st.snd.snd

/-! ### Container algorithms (uctralgo.h) -/

/-- Modelled from the spec: the iterator-range `rotate (first, middle,
last)` that `ustl::rotate (Container&, off_t)` forwards to; it lives in
ualgo.h, which is not under src/.  Its contract is stated at
src/uctralgo.h lines 378-380: "Exchanges ranges [first, middle) and
[middle, last)"; with `middle` at index `k` the result is the suffix from
`k` followed by the prefix up to `k`. -/
def rotate_range (l : List Nat) (k : Nat) : List Nat := l.drop k ++ l.take k

/-- Function `ustl::rotate (Container& ctr, off_t offset)` — src/uctralgo.h lines
381-389: `assert ((offset > 0 ? offset : -offset) < ctr.size())`, then
`rotate (begin, end - offset, end)` for positive offsets and
`rotate (begin, begin - offset, end)` otherwise.  The failed assertion is
modelled as `none`. -/
def rotate_ctr (ctr : List Nat) (offset : Int) : Option (List Nat) :=
  if (if 0 < offset then offset else -offset) < (ctr.length : Int) then
    if 0 < offset then some (rotate_range ctr (ctr.length - offset.toNat))
    else some (rotate_range ctr (-offset).toNat)
  else none

/-- Function `ustl::ibyi (idx, ctr1, ctr2)` — src/uctralgo.h lines 556-569 (both
overloads have the same body): `assert (ctr1.size() == ctr2.size())`, then
`ctr2.begin() + (idx - ctr1.begin())`.  Iterators are indices, so the
result is the same index into `ctr2`; the failed assertion is modelled as
`none`. -/
def ibyi (idx : Nat) (ctr1 : List Nat) (ctr2 : List Nat) : Option Nat :=
  if ctr1.length = ctr2.length then some idx else none

/-! ## Theorems -/

/-! ### Classification table facts -/

/-- Characters outside the ASCII range carry no classification bits in the
classic locale. -/
theorem classicMask_eq_zero_of_ge (c : Nat) (h : 128 ≤ c) : classicMask c = 0 := by
  unfold classicMask
  repeat rw [if_neg (by omega)]
  decide

/-- The `lower` mask bit is set exactly on ASCII `'a'..'z'`. -/
theorem ctype_is_lower_iff (c : Nat) :
    ctype_is ctype_base.lower c = true ↔ 97 ≤ c ∧ c ≤ 122 := by
  by_cases h : c < 128
  · have H : ∀ x : Fin 128,
        (ctype_is ctype_base.lower x.val = true ↔ 97 ≤ x.val ∧ x.val ≤ 122) := by decide
    exact H ⟨c, h⟩
  · unfold ctype_is
    rw [classicMask_eq_zero_of_ge c (by omega)]
    simp only [Nat.zero_and, decide_eq_true_eq]
    omega

/-- The `upper` mask bit is set exactly on ASCII `'A'..'Z'`. -/
theorem ctype_is_upper_iff (c : Nat) :
    ctype_is ctype_base.upper c = true ↔ 65 ≤ c ∧ c ≤ 90 := by
  by_cases h : c < 128
  · have H : ∀ x : Fin 128,
        (ctype_is ctype_base.upper x.val = true ↔ 65 ≤ x.val ∧ x.val ≤ 90) := by decide
    exact H ⟨c, h⟩
  · unfold ctype_is
    rw [classicMask_eq_zero_of_ge c (by omega)]
    simp only [Nat.zero_and, decide_eq_true_eq]
    omega

/-! ### Scan lemmas (C4) -/

theorem scan_is_le (m : Nat) (s : List Nat) : scan_is m s ≤ s.length := by
  induction s with
  | nil => simp [scan_is]
  | cons c cs ih =>
    simp only [scan_is, List.length_cons]
    split
    · omega
    · omega

theorem scan_not_le (m : Nat) (s : List Nat) : scan_not m s ≤ s.length := by
  induction s with
  | nil => simp [scan_not]
  | cons c cs ih =>
    simp only [scan_not, List.length_cons]
    split
    · omega
    · omega

theorem scan_is_eq_iff (m : Nat) (s : List Nat) :
    scan_is m s = s.length ↔ ∀ c ∈ s, ctype_is m c = false := by
  induction s with
  | nil => simp [scan_is]
  | cons c cs ih =>
    simp only [scan_is, List.length_cons, List.mem_cons]
    by_cases h : ctype_is m c = true
    · rw [if_pos h]
      constructor
      · intro h0; omega
      · intro hall
        have := hall c (Or.inl rfl)
        rw [h] at this
        exact absurd this (by simp)
    · rw [if_neg h]
      have hc : ctype_is m c = false := by
        cases hb : ctype_is m c
        · rfl
        · exact absurd hb h
      constructor
      · intro he
        intro x hx
        rcases hx with rfl | hx
        · exact hc
        · exact ih.1 (by omega) x hx
      · intro hall
        have : scan_is m cs = cs.length := ih.2 (fun x hx => hall x (Or.inr hx))
        omega

theorem scan_not_eq_iff (m : Nat) (s : List Nat) :
    scan_not m s = s.length ↔ ∀ c ∈ s, ctype_is m c = true := by
  induction s with
  | nil => simp [scan_not]
  | cons c cs ih =>
    simp only [scan_not, List.length_cons, List.mem_cons]
    by_cases h : ctype_is m c = true
    · rw [if_pos h]
      constructor
      · intro he
        intro x hx
        rcases hx with rfl | hx
        · exact h
        · exact ih.1 (by omega) x hx
      · intro hall
        have : scan_not m cs = cs.length := ih.2 (fun x hx => hall x (Or.inr hx))
        omega
    · rw [if_neg h]
      constructor
      · intro h0; omega
      · intro hall
        exact absurd (hall c (Or.inl rfl)) h

theorem scan_is_hit (m : Nat) (s : List Nat) :
    scan_is m s < s.length → ctype_is m (s.getD (scan_is m s) 0) = true := by
  induction s with
  | nil => simp [scan_is]
  | cons c cs ih =>
    simp only [scan_is, List.length_cons]
    by_cases h : ctype_is m c = true
    · rw [if_pos h]
      intro _
      simpa using h
    · rw [if_neg h]
      intro hlt
      have : scan_is m cs < cs.length := by omega
      simpa using ih this

theorem scan_not_hit (m : Nat) (s : List Nat) :
    scan_not m s < s.length → ctype_is m (s.getD (scan_not m s) 0) = false := by
  induction s with
  | nil => simp [scan_not]
  | cons c cs ih =>
    simp only [scan_not, List.length_cons]
    by_cases h : ctype_is m c = true
    · rw [if_pos h]
      intro hlt
      have : scan_not m cs < cs.length := by omega
      simpa using ih this
    · rw [if_neg h]
      intro _
      have hc : ctype_is m c = false := by
        cases hb : ctype_is m c
        · rfl
        · exact absurd hb h
      simpa using hc

theorem scan_is_before (m : Nat) (s : List Nat) :
    ∀ j, j < scan_is m s → ctype_is m (s.getD j 0) = false := by
  induction s with
  | nil => simp [scan_is]
  | cons c cs ih =>
    intro j hj
    simp only [scan_is] at hj
    by_cases h : ctype_is m c = true
    · rw [if_pos h] at hj
      omega
    · rw [if_neg h] at hj
      cases j with
      | zero =>
        have hc : ctype_is m c = false := by
          cases hb : ctype_is m c
          · rfl
          · exact absurd hb h
        simpa using hc
      | succ n =>
        simpa using ih n (by omega)

theorem scan_not_before (m : Nat) (s : List Nat) :
    ∀ j, j < scan_not m s → ctype_is m (s.getD j 0) = true := by
  induction s with
  | nil => simp [scan_not]
  | cons c cs ih =>
    intro j hj
    simp only [scan_not] at hj
    by_cases h : ctype_is m c = true
    · rw [if_pos h] at hj
      cases j with
      | zero => simpa using h
      | succ n => simpa using ih n (by omega)
    · rw [if_neg h] at hj
      omega

/-- C4: for every mask `m` and range `[s,e)`, `ctype::scan_is` returns `e`
exactly when no element matches `m` and otherwise the position of the
first matching element; symmetrically `scan_not` returns the first
non-matching position, or `e` when every element matches.  Positions are
offsets from the start of the range; the result never exceeds the range
length. -/
theorem C4_scan_characterization :
    ∀ (m : Nat) (s : List Nat),
      scan_is m s ≤ s.length ∧
      (scan_is m s = s.length ↔ ∀ c ∈ s, ctype_is m c = false) ∧
      (scan_is m s < s.length → ctype_is m (s.getD (scan_is m s) 0) = true) ∧
      (∀ j, j < scan_is m s → ctype_is m (s.getD j 0) = false) ∧
      scan_not m s ≤ s.length ∧
      (scan_not m s = s.length ↔ ∀ c ∈ s, ctype_is m c = true) ∧
      (scan_not m s < s.length → ctype_is m (s.getD (scan_not m s) 0) = false) ∧
      (∀ j, j < scan_not m s → ctype_is m (s.getD j 0) = true) :=
  fun m s =>
    ⟨scan_is_le m s, scan_is_eq_iff m s, scan_is_hit m s, scan_is_before m s,
     scan_not_le m s, scan_not_eq_iff m s, scan_not_hit m s, scan_not_before m s⟩

/-- Witness for C4 on the concrete range `"a7"` with the `digit` mask:
`scan_is` stops at index 1, which holds the digit `'7'`, and index 0 does
not match. -/
theorem C4_scan_characterization_witness :
    ctype_is ctype_base.digit
        (List.getD [97, 55] (scan_is ctype_base.digit [97, 55]) 0) = true ∧
      ctype_is ctype_base.digit (List.getD [97, 55] 0 0) = false :=
  ⟨(C4_scan_characterization ctype_base.digit [97, 55]).2.2.1 (by decide),
   (C4_scan_characterization ctype_base.digit [97, 55]).2.2.2.1 0 (by decide)⟩

/-- C6: each free classification function returns exactly
`use_facet<ctype>(loc).is(mask-bit, c)` for its mask bit, and the free
`toupper`/`tolower` return exactly the facet's `toupper`/`tolower`
(src/ufacets.h lines 191-213). -/
theorem C6_free_functions_delegate :
    ∀ (c : Nat) (loc : locale),
      isspace c loc = (use_facet_ctype loc).is ctype_base.space c ∧
      isprint c loc = (use_facet_ctype loc).is ctype_base.print c ∧
      iscntrl c loc = (use_facet_ctype loc).is ctype_base.cntrl c ∧
      isupper c loc = (use_facet_ctype loc).is ctype_base.upper c ∧
      islower c loc = (use_facet_ctype loc).is ctype_base.lower c ∧
      isalpha c loc = (use_facet_ctype loc).is ctype_base.alpha c ∧
      isdigit c loc = (use_facet_ctype loc).is ctype_base.digit c ∧
      isxdigit c loc = (use_facet_ctype loc).is ctype_base.xdigit c ∧
      isalnum c loc = (use_facet_ctype loc).is ctype_base.alnum c ∧
      isgraph c loc = (use_facet_ctype loc).is ctype_base.graph c ∧
      ispunct c loc = (use_facet_ctype loc).is ctype_base.punct c ∧
      toupper c loc = (use_facet_ctype loc).toupper c ∧
      tolower c loc = (use_facet_ctype loc).tolower c :=
  fun _ _ =>
    ⟨rfl, rfl, rfl, rfl, rfl, rfl, rfl, rfl, rfl, rfl, rfl, rfl, rfl⟩

/-- C8 counterexample: `'a'` (97) is alphabetic in the default locale, yet
`toupper(tolower('a')) = 'A' ≠ 'a'`, so the claimed two-sided identity
fails on the alphabetic subset. -/
theorem C8_counterexample :
    ctype_is ctype_base.alpha 97 = true ∧
      ¬(classic_toupper (classic_tolower 97) = 97 ∧
        classic_tolower (classic_toupper 97) = 97) := by
  decide

/-- C8 amended: `toupper` and `tolower` are mutually inverse between the
lowercase and uppercase subsets of the default locale: `tolower` undoes
`toupper` on every lowercase character, and `toupper` undoes `tolower` on
every uppercase character. -/
theorem C8_case_maps_inverse :
    ∀ c : Nat,
      (ctype_is ctype_base.lower c = true →
        classic_tolower (classic_toupper c) = c) ∧
      (ctype_is ctype_base.upper c = true →
        classic_toupper (classic_tolower c) = c) := by
  intro c
  constructor
  · intro h
    have hr : 97 ≤ c ∧ c ≤ 122 := (ctype_is_lower_iff c).1 h
    unfold classic_toupper classic_tolower
    rw [if_pos hr, if_pos (show 65 ≤ c - 32 ∧ c - 32 ≤ 90 by omega)]
    omega
  · intro h
    have hr : 65 ≤ c ∧ c ≤ 90 := (ctype_is_upper_iff c).1 h
    unfold classic_toupper classic_tolower
    rw [if_pos hr, if_pos (show 97 ≤ c + 32 ∧ c + 32 ≤ 122 by omega)]
    omega

/-- Witness for the amended C8 at `'a'` (97) and `'Z'` (90). -/
theorem C8_case_maps_inverse_witness :
    classic_tolower (classic_toupper 97) = 97 ∧
      classic_toupper (classic_tolower 90) = 90 :=
  ⟨(C8_case_maps_inverse 97).1 (by decide),
   (C8_case_maps_inverse 90).2 (by decide)⟩

/-- C9: `ctype::widen` is the identity mapping, hence lossless and
injective (src/ufacets.h line 59: `{ return (c); }`). -/
theorem C9_widen_identity :
    (∀ c : Nat, widen c = c) ∧ ∀ a b : Nat, widen a = widen b → a = b :=
  ⟨fun _ => rfl, fun _ _ h => h⟩

/-- Witness for C9 at `'A'` (65). -/
theorem C9_widen_identity_witness : widen 65 = 65 ∧ (65 : Nat) = 65 :=
  ⟨C9_widen_identity.1 65, C9_widen_identity.2 65 65 rfl⟩

/-! ### Rotation and index translation (C7, C10) -/

/-- C7: `rotate(ctr, offset)` hits its assertion (terminating the
operation) exactly when `|offset| ≥ ctr.size()`, and `ibyi` hits its
assertion exactly when the two containers' sizes differ; so under the
preconditions `|offset| < ctr.size()` and `ctr1.size() == ctr2.size()` the
assertion branches are unreachable (src/uctralgo.h lines 381-389 and
556-569). -/
theorem C7_assertion_conditions :
    ∀ (ctr : List Nat) (offset : Int),
      (rotate_ctr ctr offset = none ↔ ctr.length ≤ offset.natAbs) ∧
      ∀ (idx : Nat) (c1 c2 : List Nat),
        ibyi idx c1 c2 = none ↔ c1.length ≠ c2.length := by
  intro ctr offset
  constructor
  · unfold rotate_ctr
    split_ifs with hg h0 <;> simp <;> omega
  · intro idx c1 c2
    unfold ibyi
    split_ifs with h <;> simp [h]

/-- C10: a positive in-range offset performs a right rotation — the call
is `rotate (begin, end - offset, end)`, so the result is the last
`offset` elements (`drop (size - offset)`, whose length is `offset`)
followed by the first `size - offset`; a negative in-range offset performs
a left rotation by `|offset|` — the call is
`rotate (begin, begin - offset, end)`, so the result is the elements from
`|offset|` on, followed by the first `|offset|` (src/uctralgo.h lines
381-389). -/
theorem C10_rotate_direction :
    ∀ (ctr : List Nat) (offset : Int),
      (0 < offset → offset < (ctr.length : Int) →
        rotate_ctr ctr offset =
            some (ctr.drop (ctr.length - offset.toNat) ++
              ctr.take (ctr.length - offset.toNat)) ∧
          (ctr.drop (ctr.length - offset.toNat)).length = offset.toNat) ∧
      (offset < 0 → -offset < (ctr.length : Int) →
        rotate_ctr ctr offset =
            some (ctr.drop (-offset).toNat ++ ctr.take (-offset).toNat) ∧
          (ctr.take (-offset).toNat).length = (-offset).toNat) := by
  intro ctr offset
  constructor
  · intro h1 h2
    have hg : (if 0 < offset then offset else -offset) < (ctr.length : Int) := by
      rw [if_pos h1]; exact h2
    constructor
    · simp only [rotate_ctr, rotate_range, if_pos hg, if_pos h1]
      rw [if_pos h2]
    · rw [List.length_drop]
      omega
  · intro h1 h2
    have h1' : ¬ (0 < offset) := by omega
    have hg : (if 0 < offset then offset else -offset) < (ctr.length : Int) := by
      rw [if_neg h1']; exact h2
    constructor
    · simp only [rotate_ctr, rotate_range, if_pos hg, if_neg h1']
      rw [if_pos h2]
    · rw [List.length_take]
      omega

/-- Witness for C10: rotating `[1,2,3,4,5]` by `+2` moves the last two
elements to the front, and by `-2` moves the first two to the back. -/
theorem C10_rotate_direction_witness :
    (rotate_ctr [1, 2, 3, 4, 5] 2 =
        some (List.drop 3 [1, 2, 3, 4, 5] ++ List.take 3 [1, 2, 3, 4, 5]) ∧
      (List.drop 3 [1, 2, 3, 4, 5]).length = 2) ∧
    (rotate_ctr [1, 2, 3, 4, 5] (-2) =
        some (List.drop 2 [1, 2, 3, 4, 5] ++ List.take 2 [1, 2, 3, 4, 5]) ∧
      (List.take 2 [1, 2, 3, 4, 5]).length = 2) :=
  ⟨(C10_rotate_direction [1, 2, 3, 4, 5] 2).1 (by decide) (by decide),
   (C10_rotate_direction [1, 2, 3, 4, 5] (-2)).2 (by decide) (by decide)⟩

/-! ### Message catalogs (C5) -/

/-- After `close(h)` the open-catalog table holds no entry for `h`. -/
theorem messages_find_after_close
    (tbl : List (Int × List ((Nat × Nat) × String))) (h : Int) :
    (messages_close tbl h).find? (fun e => e.fst == h) = none := by
  induction tbl with
  | nil => rfl
  | cons e t ih =>
    unfold messages_close at ih ⊢
    by_cases he : e.fst = h
    · simp only [List.filter_cons, he, bne_self_eq_false]
      exact ih
    · have : (e.fst != h) = true := by simp [bne, he]
      simp only [List.filter_cons, this, if_pos]
      rw [List.find?_cons_of_neg _ (by simp [he])]
      exact ih

/-- C5: for every catalog handle `h` that has been closed, any subsequent
`messages::get(h, set, id)` is a total lookup that returns the fallback
string — it never aborts the process. -/
theorem C5_get_after_close :
    ∀ (tbl : List (Int × List ((Nat × Nat) × String))) (h : Int)
      (s msgid : Nat),
      messages_get (messages_close tbl h) h s msgid = messages_fallback := by
  intro tbl h s msgid
  unfold messages_get
  rw [messages_find_after_close]

/-! ### Collation (C3) -/

/-- C3: `collate::compare(a,b) < 0` holds exactly when `transform(a)` is
lexicographically smaller than `transform(b)`, for every pair of
strings. -/
theorem C3_compare_transform_equiv :
    ∀ (a b : List Nat),
      collate_compare a b < 0 ↔
        lexLt (collate_transform a) (collate_transform b) = true := by
  intro a
  induction a with
  | nil =>
    intro b
    cases b <;> simp [collate_compare, collate_transform, lexLt]
  | cons x as ih =>
    intro b
    cases b with
    | nil => simp [collate_compare, collate_transform, lexLt]
    | cons y bs =>
      simp only [collate_compare, collate_transform, lexLt] at ih ⊢
      by_cases hxy : x < y
      · simp [hxy]
      · by_cases hyx : y < x
        · have hne : ¬(x = y) := by omega
          simp [hxy, hyx, hne]
        · have heq : x = y := by omega
          subst heq
          simp only [if_neg hxy, if_neg hyx, decide_eq_true_eq]
          rw [ih bs]
          simp

/-! ### Numeric parsing (C1) -/

theorem digitVal_of_digit (d : Nat) (h1 : 48 ≤ d) (h2 : d ≤ 57) :
    digitVal 10 d = some (d - 48) := by
  unfold digitVal
  rw [if_pos ⟨h1, h2, by omega⟩]

theorem isSpaceChar_of_digit (d : Nat) (h1 : 48 ≤ d) (h2 : d ≤ 57) :
    isSpaceChar d = false := by
  simp only [isSpaceChar, decide_eq_false_iff_not]
  omega

/-- On a run of decimal digits the digit loop consumes everything and
folds the digit values into the accumulator. -/
theorem digitRun_all_digits (ds : List Nat) (hds : ∀ d ∈ ds, 48 ≤ d ∧ d ≤ 57) :
    ∀ acc : Int,
      digitRun 10 44 ds acc =
        (ds.foldl (fun a d => a * 10 + ((d - 48 : Nat) : Int)) acc, ds.length) := by
  induction ds with
  | nil => intro acc; rfl
  | cons d ds' ih =>
    intro acc
    have hd := hds d (List.mem_cons_self _ _)
    simp only [digitRun, digitVal_of_digit d hd.1 hd.2, List.foldl_cons,
      List.length_cons]
    rw [ih (fun x hx => hds x (List.mem_cons_of_mem _ hx))]
    norm_num

/-- The `Int`-valued digit fold agrees with the `Nat`-valued positional
value. -/
theorem foldl_int_eq_natOfDigits (ds : List Nat) :
    ∀ n : Nat,
      ds.foldl (fun a d => a * 10 + ((d - 48 : Nat) : Int)) (n : Int) =
        ((ds.foldl (fun a d => 10 * a + (d - 48)) n : Nat) : Int) := by
  induction ds with
  | nil => intro n; rfl
  | cons d ds' ih =>
    intro n
    simp only [List.foldl_cons]
    have hc : ((n : Int) * 10 + ((d - 48 : Nat) : Int)) =
        ((10 * n + (d - 48) : Nat) : Int) := by
      push_cast
      ring
    rw [hc, ih]

/-- C1: for an input that is ASCII digits optionally preceded by a sign,
`num_get::get` under base-10 flags consumes the whole input (the returned
iterator offset equals the input length) and yields exactly the signed
positional value of the digit string. -/
theorem C1_num_get_base10 :
    ∀ (sgn ds : List Nat),
      sgn = [] ∨ sgn = [43] ∨ sgn = [45] →
      ds ≠ [] →
      (∀ d ∈ ds, 48 ≤ d ∧ d ≤ 57) →
      num_get_int 10 44 (sgn ++ ds) =
        (if sgn = [45] then -(natOfDigits ds : Int) else (natOfDigits ds : Int),
         (sgn ++ ds).length) := by
  intro sgn ds hsgn hne hds
  obtain ⟨d, ds', rfl⟩ := List.exists_cons_of_ne_nil hne
  have hd := hds d (List.mem_cons_self _ _)
  have hrun := digitRun_all_digits (d :: ds') hds 0
  have hcast := foldl_int_eq_natOfDigits (d :: ds') 0
  rw [Nat.cast_zero] at hcast
  rw [hcast] at hrun
  rcases hsgn with rfl | rfl | rfl
  · have htw : (d :: ds').takeWhile isSpaceChar = [] := by
      rw [List.takeWhile_cons, isSpaceChar_of_digit d hd.1 hd.2]
      rfl
    simp only [List.nil_append, num_get_int, htw, List.length_nil,
      List.drop_zero]
    rw [if_neg (by omega : ¬(d = 45)), if_neg (by omega : ¬(d = 43)), hrun]
    simp [natOfDigits]
  · have htw : ((43 : Nat) :: d :: ds').takeWhile isSpaceChar = [] := by
      rw [List.takeWhile_cons]
      rfl
    simp only [List.cons_append, List.nil_append, num_get_int, htw,
      List.length_nil, List.drop_zero]
    rw [hrun]
    simp [natOfDigits]
    omega
  · have htw : ((45 : Nat) :: d :: ds').takeWhile isSpaceChar = [] := by
      rw [List.takeWhile_cons]
      rfl
    simp only [List.cons_append, List.nil_append, num_get_int, htw,
      List.length_nil, List.drop_zero]
    rw [hrun]
    simp [natOfDigits]
    omega

/-- Witness for C1 on `"-123"`: the parse yields −123 and consumes all
four characters. -/
theorem C1_num_get_base10_witness :
    num_get_int 10 44 ([45] ++ [49, 50, 51]) =
      (if ([45] : List Nat) = [45] then -(natOfDigits [49, 50, 51] : Int)
       else (natOfDigits [49, 50, 51] : Int),
       (([45] : List Nat) ++ [49, 50, 51]).length) :=
  C1_num_get_base10 [45] [49, 50, 51] (Or.inr (Or.inr rfl)) (by decide)
    (by decide)

/-! ### Monetary round trip (C2) -/

theorem natOfDigits_concat (xs : List Nat) (d : Nat) :
    natOfDigits (xs ++ [d]) = 10 * natOfDigits xs + (d - 48) := by
  unfold natOfDigits
  rw [List.foldl_append]
  rfl

/-- With enough fuel, the digit printer emits a nonempty string of digit
characters whose positional value is the printed number. -/
theorem mdigitsAux_spec (fuel : Nat) :
    ∀ n : Nat, n < fuel →
      natOfDigits (mdigitsAux fuel n) = n ∧
      mdigitsAux fuel n ≠ [] ∧
      ∀ x ∈ mdigitsAux fuel n, 48 ≤ x ∧ x ≤ 57 := by
  induction fuel with
  | zero => intro n h; omega
  | succ f ih =>
    intro n h
    simp only [mdigitsAux]
    by_cases h10 : n < 10
    · rw [if_pos h10]
      refine ⟨?_, by simp, ?_⟩
      · simp only [natOfDigits, List.foldl_cons, List.foldl_nil]
        omega
      · intro x hx
        simp only [List.mem_singleton] at hx
        omega
    · rw [if_neg h10]
      have hdiv : n / 10 < f := by
        have := Nat.div_lt_self (show 0 < n by omega) (show 1 < 10 by omega)
        omega
      obtain ⟨ihv, ihne, ihb⟩ := ih (n / 10) hdiv
      refine ⟨?_, by simp, ?_⟩
      · rw [natOfDigits_concat, ihv]
        omega
      · intro x hx
        rcases List.mem_append.1 hx with hx | hx
        · exact ihb x hx
        · simp only [List.mem_singleton] at hx
          omega

theorem natOfDigits_mdigits (n : Nat) : natOfDigits (mdigits n) = n :=
  (mdigitsAux_spec (n + 1) n (by omega)).1

theorem mdigits_ne_nil (n : Nat) : mdigits n ≠ [] :=
  (mdigitsAux_spec (n + 1) n (by omega)).2.1

theorem mdigits_bounds (n : Nat) : ∀ x ∈ mdigits n, 48 ≤ x ∧ x ≤ 57 :=
  (mdigitsAux_spec (n + 1) n (by omega)).2.2

theorem natOfDigits_mfrac2 (r : Nat) (h : r < 100) :
    natOfDigits (mfrac2 r) = r := by
  simp only [natOfDigits, mfrac2, List.foldl_cons, List.foldl_nil]
  omega

theorem mfrac2_bounds (r : Nat) : ∀ x ∈ mfrac2 r, 48 ≤ x ∧ x ≤ 57 := by
  intro x hx
  simp only [mfrac2, List.mem_cons, List.not_mem_nil, or_false] at hx
  have h1 : r / 10 % 10 < 10 := Nat.mod_lt _ (by omega)
  have h2 : r % 10 < 10 := Nat.mod_lt _ (by omega)
  rcases hx with rfl | rfl <;> omega

/-- A `takeWhile`/`dropWhile` pair splits an append exactly at the
boundary when the prefix satisfies the predicate throughout and the suffix
starts (if at all) with a failing element. -/
theorem takeWhile_dropWhile_append (p : Nat → Bool) (xs ys : List Nat)
    (hxs : ∀ x ∈ xs, p x = true)
    (hys : ∀ y, ys.head? = some y → p y = false) :
    (xs ++ ys).takeWhile p = xs ∧ (xs ++ ys).dropWhile p = ys := by
  induction xs with
  | nil =>
    simp only [List.nil_append]
    cases ys with
    | nil => simp
    | cons y ys' =>
      have hy := hys y rfl
      simp [List.takeWhile_cons, List.dropWhile_cons, hy]
  | cons x xs' ih =>
    have hx := hxs x (List.mem_cons_self _ _)
    have ihh := ih fun a ha => hxs a (List.mem_cons_of_mem _ ha)
    simp [List.takeWhile_cons, List.dropWhile_cons, hx, ihh.1, ihh.2]

theorem mem_of_head?_eq {l : List Nat} {y : Nat} (h : l.head? = some y) :
    y ∈ l := by
  cases l with
  | nil => simp at h
  | cons a t =>
    simp only [List.head?_cons, Option.some.injEq] at h
    subst h
    exact List.mem_cons_self _ _

theorem head?_append_left {xs ys : List Nat} (h : xs ≠ []) :
    (xs ++ ys).head? = xs.head? := by
  cases xs with
  | nil => exact absurd rfl h
  | cons a l => rfl

theorem money_value_token_ne_nil (v : Int) : money_value_token v ≠ [] := by
  unfold money_value_token
  simp

/-- The value token starts with a digit character. -/
theorem money_value_token_head (v : Int) :
    ∀ y, (money_value_token v).head? = some y → 48 ≤ y ∧ y ≤ 57 := by
  intro y hy
  obtain ⟨a, as, ha⟩ :=
    List.exists_cons_of_ne_nil (mdigits_ne_nil (v.natAbs / 100))
  unfold money_value_token at hy
  rw [ha] at hy
  simp only [List.cons_append, List.head?_cons, Option.some.injEq] at hy
  subst hy
  exact mdigits_bounds _ a (by rw [ha]; exact List.mem_cons_self _ _)

/-- Tokens of non-`value` fields contain only `' '`, `'$'` and `'-'`. -/
theorem money_field_put_nonvalue (v : Int) (f : mpart) (hf : f ≠ mpart.value) :
    ∀ x ∈ money_field_put v f, x = 32 ∨ x = 36 ∨ x = 45 := by
  cases f with
  | none => simp [money_field_put]
  | space => simp [money_field_put]
  | symbol => simp [money_field_put]
  | sign =>
    by_cases hv : v < 0 <;> simp [money_field_put, hv]
  | value => exact absurd rfl hf

theorem money_put_nonvalue_mem (v : Int) (fs : List mpart)
    (hfs : mpart.value ∉ fs) :
    ∀ x ∈ (fs.map (money_field_put v)).flatten, x = 32 ∨ x = 36 ∨ x = 45 := by
  intro x hx
  rw [List.mem_flatten] at hx
  obtain ⟨l, hl, hxl⟩ := hx
  rw [List.mem_map] at hl
  obtain ⟨f, hf, rfl⟩ := hl
  exact money_field_put_nonvalue v f (by rintro rfl; exact hfs hf) x hxl

/-- For nonnegative amounts no token of a non-`value` field contains
`'-'`. -/
theorem money_put_no45_mem (v : Int) (h0 : 0 ≤ v) (fs : List mpart)
    (hfs : mpart.value ∉ fs) :
    ∀ x ∈ (fs.map (money_field_put v)).flatten, x = 32 ∨ x = 36 := by
  intro x hx
  rw [List.mem_flatten] at hx
  obtain ⟨l, hl, hxl⟩ := hx
  rw [List.mem_map] at hl
  obtain ⟨f, hf, rfl⟩ := hl
  have hfv : f ≠ mpart.value := by rintro rfl; exact hfs hf
  cases f with
  | none => simp [money_field_put] at hxl
  | space =>
    simp only [money_field_put, List.mem_singleton] at hxl
    exact Or.inl hxl
  | symbol =>
    simp only [money_field_put, List.mem_singleton] at hxl
    exact Or.inr hxl
  | sign =>
    simp only [money_field_put, if_neg (show ¬(v < 0) by omega)] at hxl
    simp at hxl
  | value => exact absurd rfl hfv

/-- Parsing the value token in front of a suffix that does not start with
a digit recovers the amount's magnitude exactly and leaves the suffix. -/
theorem money_parse_value_token (v : Int) (rest : List Nat)
    (hrest : ∀ y, rest.head? = some y → isDigitChar y = false) :
    money_parse_value (money_value_token v ++ rest) = ((v.natAbs : Int), rest) := by
  have hudig : ∀ x ∈ mdigits (v.natAbs / 100), isDigitChar x = true := by
    intro x hx
    have := mdigits_bounds _ x hx
    simp only [isDigitChar, decide_eq_true_eq]
    omega
  have hfdig : ∀ x ∈ mfrac2 (v.natAbs % 100), isDigitChar x = true := by
    intro x hx
    have := mfrac2_bounds _ x hx
    simp only [isDigitChar, decide_eq_true_eq]
    omega
  have heq : money_value_token v ++ rest =
      mdigits (v.natAbs / 100) ++ (46 :: (mfrac2 (v.natAbs % 100) ++ rest)) := by
    simp [money_value_token]
  have hsplit1 := takeWhile_dropWhile_append isDigitChar
      (mdigits (v.natAbs / 100)) (46 :: (mfrac2 (v.natAbs % 100) ++ rest))
      hudig (by
        intro y hy
        simp only [List.head?_cons, Option.some.injEq] at hy
        subst hy
        decide)
  have hsplit2 := takeWhile_dropWhile_append isDigitChar
      (mfrac2 (v.natAbs % 100)) rest hfdig hrest
  rw [heq]
  simp only [money_parse_value, hsplit1.1, hsplit1.2, hsplit2.1, hsplit2.2]
  have hlen : (mfrac2 (v.natAbs % 100)).length = 2 := rfl
  rw [if_pos (by rw [hlen])]
  rw [natOfDigits_mdigits, natOfDigits_mfrac2 _ (Nat.mod_lt _ (by omega)),
    hlen]
  simp only [Nat.sub_self, pow_zero, mul_one, Prod.mk.injEq]
  constructor
  · rw [show v.natAbs / 100 * 100 + v.natAbs % 100 = v.natAbs by omega]
  · trivial

/-- Walking an appended field list walks the two parts in order. -/
theorem money_get_fields_append (fs gs : List mpart)
    (st : List Nat × Bool × Int) :
    money_get_fields (fs ++ gs) st =
      money_get_fields gs (money_get_fields fs st) := by
  induction fs generalizing st with
  | nil => rfl
  | cons f fs' ih =>
    simp only [List.cons_append, money_get_fields]
    exact ih _

/-- A non-`value` field consumes exactly its own token: the remainder and
value are untouched, and the negative flag is raised exactly when the
field is `sign` and the amount is negative (the suffix must not begin with
`'-'` when the amount is nonnegative, which rules out a spurious sign
match on an empty positive-sign token). -/
theorem money_field_get_consume (v : Int) (f : mpart) (hf : f ≠ mpart.value)
    (rest : List Nat) (neg : Bool) (val : Int)
    (hrest : 0 ≤ v → ∀ y, rest.head? = some y → y ≠ 45) :
    money_field_get f (money_field_put v f ++ rest, neg, val) =
      (rest, neg || (decide (v < 0) && decide (f = mpart.sign)), val) := by
  cases f with
  | none => simp [money_field_get, money_field_put]
  | space => simp [money_field_get, money_field_put]
  | symbol => simp [money_field_get, money_field_put]
  | sign =>
    by_cases hv : v < 0
    · simp [money_field_get, money_field_put, hv]
    · have h0 : (0 : Int) ≤ v := by omega
      simp only [money_field_put, if_neg hv, List.nil_append, money_field_get,
        decide_eq_true_eq]
      cases rest with
      | nil => simp [hv]
      | cons y r =>
        have hy := hrest h0 y rfl
        have hy45 : ¬(y = 45) := hy
        split
        · rename_i heq
          rw [List.cons.injEq] at heq
          exact absurd heq.1 hy45
        · simp [hv]
  | value => exact absurd rfl hf

/-- Walking a `value`-free field list over its own emitted text followed
by `rest` consumes exactly the emitted text; the value is untouched and
the negative flag records whether a `sign` field saw the negative-sign
string. -/
theorem money_get_fields_nonvalue (v : Int) (rest : List Nat) (val : Int)
    (hrest : 0 ≤ v → ∀ y, rest.head? = some y → y ≠ 45) :
    ∀ fs : List mpart, mpart.value ∉ fs →
      ∀ neg : Bool,
        money_get_fields fs
            ((fs.map (money_field_put v)).flatten ++ rest, neg, val) =
          (rest, neg || (decide (v < 0) && decide (mpart.sign ∈ fs)), val) := by
  intro fs
  induction fs with
  | nil =>
    intro _ neg
    simp [money_get_fields]
  | cons f fs' ih =>
    intro hfs neg
    have hf : f ≠ mpart.value := by
      rintro rfl
      exact hfs (List.mem_cons_self _ _)
    have hfs' : mpart.value ∉ fs' := fun h => hfs (List.mem_cons_of_mem _ h)
    have hrest2 : 0 ≤ v →
        ∀ y, ((fs'.map (money_field_put v)).flatten ++ rest).head? = some y →
          y ≠ 45 := by
      intro h0 y hy
      rcases hflat : (fs'.map (money_field_put v)).flatten with _ | ⟨a, l⟩
      · rw [hflat, List.nil_append] at hy
        exact hrest h0 y hy
      · rw [hflat, List.cons_append, List.head?_cons,
          Option.some.injEq] at hy
        have hmem2 : a ∈ (fs'.map (money_field_put v)).flatten := by
          rw [hflat]
          exact List.mem_cons_self _ _
        rcases money_put_no45_mem v h0 fs' hfs' a hmem2 with h32 | h36 <;> omega
    simp only [List.map_cons, List.flatten_cons, List.append_assoc,
      money_get_fields]
    rw [money_field_get_consume v f hf _ neg val hrest2]
    rw [ih hfs' _]
    by_cases hv : v < 0 <;> by_cases hsf : f = mpart.sign <;>
      by_cases hm : mpart.sign ∈ fs' <;>
      simp [hv, hsf, hm, List.mem_cons, eq_comm]

/-- C2 counterexample: the round trip fails as soon as the pattern does
not carry the amount's information — a pattern with no `value` field loses
the amount (1 ↦ 0), a pattern without a `sign` field loses the sign
(−12.34 ↦ +12.34), and a duplicated `value` field corrupts the digits
(12.34 ↦ 0.34); each is a concrete pattern the claim quantifies over. -/
theorem C2_roundtrip_counterexample :
    money_get (mpattern.fields ⟨mpart.none, mpart.none, mpart.none, mpart.none⟩)
        (money_put
          (mpattern.fields ⟨mpart.none, mpart.none, mpart.none, mpart.none⟩)
          1) ≠ 1 ∧
      money_get
          (mpattern.fields ⟨mpart.symbol, mpart.value, mpart.none, mpart.none⟩)
          (money_put
            (mpattern.fields ⟨mpart.symbol, mpart.value, mpart.none, mpart.none⟩)
            (-1234)) ≠ -1234 ∧
      money_get
          (mpattern.fields ⟨mpart.value, mpart.value, mpart.none, mpart.none⟩)
          (money_put
            (mpattern.fields ⟨mpart.value, mpart.value, mpart.none, mpart.none⟩)
            1234) ≠ 1234 := by
  decide

/-- C2 amended: for every amount and every pattern that carries the
amount's information — the `value` field appears exactly once and a `sign`
field is present — formatting with `money_put::put` and re-parsing with
`money_get::get` under the identical pattern and (classic) punctuation
settings reproduces the original amount exactly. -/
theorem C2_roundtrip_amended :
    ∀ (p : mpattern) (v : Int),
      p.fields.count mpart.value = 1 →
      mpart.sign ∈ p.fields →
      money_get p.fields (money_put p.fields v) = v := by
  intro p v hcount hsign
  have hvmem : mpart.value ∈ p.fields := by
    rcases List.count_pos_iff.1 (show 0 < p.fields.count mpart.value by omega)
      with h
    exact h
  obtain ⟨pre, post, hps⟩ := List.append_of_mem hvmem
  have hcount' : pre.count mpart.value + (post.count mpart.value + 1) = 1 := by
    rw [hps] at hcount
    simpa [List.count_append, List.count_cons] using hcount
  have hpre : mpart.value ∉ pre :=
    List.count_eq_zero.1 (by omega)
  have hpost : mpart.value ∉ post :=
    List.count_eq_zero.1 (by omega)
  have hput : money_put p.fields v =
      (pre.map (money_field_put v)).flatten ++
        (money_value_token v ++ (post.map (money_field_put v)).flatten) := by
    rw [hps]
    simp [money_put, List.map_append, List.flatten_append, money_field_put]
  have hrest1 : 0 ≤ v → ∀ y,
      ((money_value_token v ++
        (post.map (money_field_put v)).flatten).head? = some y) → y ≠ 45 := by
    intro _ y hy
    rw [head?_append_left (money_value_token_ne_nil v)] at hy
    have := money_value_token_head v y hy
    omega
  have hdigpost : ∀ y,
      ((post.map (money_field_put v)).flatten.head? = some y) →
        isDigitChar y = false := by
    intro y hy
    have hmem := mem_of_head?_eq hy
    rcases money_put_nonvalue_mem v post hpost y hmem with rfl | rfl | rfl <;>
      decide
  have hpre_run := money_get_fields_nonvalue v
      (money_value_token v ++ (post.map (money_field_put v)).flatten) 0
      hrest1 pre hpre false
  have hval_run := money_parse_value_token v
      ((post.map (money_field_put v)).flatten) hdigpost
  have hpost_run := money_get_fields_nonvalue v [] ((v.natAbs : Int))
      (by intro _ y hy; simp at hy) post hpost
      (false || (decide (v < 0) && decide (mpart.sign ∈ pre)))
  rw [List.append_nil] at hpost_run
  have hmain : money_get_fields p.fields (money_put p.fields v, false, 0) =
      ([], (false || (decide (v < 0) && decide (mpart.sign ∈ pre))) ||
        (decide (v < 0) && decide (mpart.sign ∈ post)), (v.natAbs : Int)) := by
    rw [hput, hps, money_get_fields_append, hpre_run]
    simp only [money_get_fields, money_field_get, hval_run]
    rw [hpost_run]
  rw [hps] at hsign
  have hfin : ((false || (decide (v < 0) && decide (mpart.sign ∈ pre))) ||
      (decide (v < 0) && decide (mpart.sign ∈ post))) = decide (v < 0) := by
    rcases List.mem_append.1 hsign with hs | hs
    · by_cases hv : v < 0 <;> simp [hv, hs]
    · have hs' : mpart.sign ∈ post := by
        rcases List.mem_cons.1 hs with h | h
        · exact absurd h (by decide)
        · exact h
      by_cases hv : v < 0 <;> simp [hv, hs']
  unfold money_get
  rw [hmain, hfin]
  dsimp only
  by_cases hv : v < 0
  · rw [if_pos (by simpa using hv)]
    omega
  · rw [if_neg (by simpa using hv)]
    omega

/-- Witness for the amended C2: pattern `{symbol, sign, value, none}` with
amount 12.34 (1234 hundredths) — `put` renders `"$12.34"` and `get`
recovers 1234. -/
theorem C2_roundtrip_amended_witness :
    money_get
        (mpattern.fields ⟨mpart.symbol, mpart.sign, mpart.value, mpart.none⟩)
        (money_put
          (mpattern.fields ⟨mpart.symbol, mpart.sign, mpart.value, mpart.none⟩)
          1234) = 1234 :=
  C2_roundtrip_amended ⟨mpart.symbol, mpart.sign, mpart.value, mpart.none⟩
    1234 (by decide) (by decide)

end ustl
